import Mathlib

/-!
Verification of the ADC acquisition core of the Motion-Analyzer firmware
(files ctrlADC.cpp / ctrlADC.h / ctrlTimer.cpp / ctrlTimer.h).

The C sources are shallowly embedded: the module-level globals of ctrlADC.cpp
become one record (AdcState), machine integers become Nat / Int with explicit
reductions where the C types wrap, and the fallible array store of the
interrupt handler returns Option.
-/

/-- N_ADC_INPUT from ctrlADC.h: number of ADC inputs. -/
def N_ADC_INPUT : Nat := 5

/-- N_ADC_BUFFERS from ctrlADC.h: number of ADC buffers. -/
def N_ADC_BUFFERS : Nat := 64

/-- N_ADC_BUFFER_POS from ctrlADC.h: positions in each buffer. -/
def N_ADC_BUFFER_POS : Nat := 16

/-- The module-level mutable globals of ctrlADC.cpp.
ADC_EnabledInputs : uint8_t; ADC_buffer : int16_t[5][64][16];
iBuffer : uint8_t; iBufferPos : int (never negative in the program);
iBufferTransmit : uint8_t; iReadInput : int (idle = -1). -/
structure AdcState where
  ADC_EnabledInputs : Nat
  ADC_buffer : List (List (List Int))
  iBuffer : Nat
  iBufferPos : Nat
  iBufferTransmit : Nat
  iReadInput : Int

/-- The scan loop of ADC_StartRead over an explicit list of candidate
channel indices: the C loop runs iInput from iReadInput+1 to N_ADC_INPUT-1
and stops at the first index whose bit is set in the mask; skipping the
indices at or below cur is rendered as the guard cur < i. -/
def findEnabled (mask : Nat) (cur : Int) : List Nat → Option Nat
  | [] => none
  | i :: is => if cur < (i : Int) ∧ mask.testBit i then some i else findEnabled mask cur is

/-- The channel selected by one call of ADC_StartRead when the reading
channel is cur: the first index in (cur, N_ADC_INPUT) enabled in the mask. -/
def scanNext (mask : Nat) (cur : Int) : Option Nat :=
  findEnabled mask cur (List.range N_ADC_INPUT)

/-- ADC_StartRead (ctrlADC.cpp lines 19-42).  The second component models the
hardware start-conversion request (MUXPOS select + SWTRIG.START) issued for
the found channel; on none no register access happens and the state is
unchanged. -/
def ADC_StartRead (s : AdcState) : AdcState × Option Nat :=
  match scanNext s.ADC_EnabledInputs s.iReadInput with
  | some i => ({ s with iReadInput := (i : Int) }, some i)
  | none => (s, none)

/-- ADC_UpdateBufferIdx (ctrlADC.cpp lines 70-83).  iBuffer is a uint8_t, so
the C increment wraps at 256 before the % N_ADC_BUFFERS reduction. -/
def ADC_UpdateBufferIdx (s : AdcState) : AdcState :=
  if s.ADC_EnabledInputs ≠ 0 then
    if s.iBufferPos + 1 = N_ADC_BUFFER_POS then
      { s with iBufferTransmit := s.iBuffer,
               iBuffer := ((s.iBuffer + 1) % 256) % N_ADC_BUFFERS,
               iBufferPos := 0,
               iReadInput := -1 }
    else
      { s with iBufferPos := s.iBufferPos + 1, iReadInput := -1 }
  else s

/-- Reinterpret a 16-bit unsigned pattern as a signed int16_t (the C cast
(int16_t) in ADC_Handler). -/
def toInt16 (u : Nat) : Int :=
  if u % 65536 < 32768 then (u % 65536 : Int) else (u % 65536 : Int) - 65536

/-- The sample conversion of ADC_Handler (ctrlADC.cpp lines 121-127):
sample is the 16-bit RESULT register; if bit 11 is set the bits above the
native 12-bit width are set (sample |= 0xf000); the result is stored as
int16_t. -/
def convertSample (raw : Nat) : Int :=
  let sample := raw % 65536
  let sample2 := if sample &&& 0x0800 ≠ 0 then sample ||| 0xf000 else sample
  toInt16 sample2

/-- The store ADC_buffer[i][b][p] = v of ADC_Handler, with Option-valued
bounds checking: any index outside the allocated extents (in the C source,
out-of-bounds array access) yields none. -/
def bufferStore (buf : List (List (List Int))) (i : Int) (b p : Nat) (v : Int) :
    Option (List (List (List Int))) :=
  if 0 ≤ i ∧ i.toNat < buf.length then
    match buf[i.toNat]? with
    | none => none
    | some ch =>
      match ch[b]? with
      | none => none
      | some fr =>
        if p < fr.length then
          some (buf.set i.toNat (ch.set b (fr.set p v)))
        else none
  else none

/-- ADC_Handler (ctrlADC.cpp lines 119-133): convert the raw RESULT reading,
store it at ADC_buffer[iReadInput][iBuffer][iBufferPos], then call
ADC_StartRead.  Returns the new state and the pending conversion request
(if any); none when the store is out of bounds. -/
def ADC_Handler (raw : Nat) (s : AdcState) : Option (AdcState × Option Nat) :=
  match bufferStore s.ADC_buffer s.iReadInput s.iBuffer s.iBufferPos (convertSample raw) with
  | none => none
  | some buf2 => some (ADC_StartRead { s with ADC_buffer := buf2 })

/-- Chain of conversion-complete events: while a conversion is pending,
run ADC_Handler (which itself re-invokes ADC_StartRead) on the next raw
reading.  Returns the final state and the list of channels the samples were
stored into (iReadInput at each handler invocation).  Fuel bounds the chain;
N_ADC_INPUT + 1 suffices because the pending channel strictly increases. -/
def chainConv : Nat → (Nat → Nat) → AdcState → Option Nat → Option (AdcState × List Int)
  | _, _, s, none => some (s, [])
  | 0, _, _, some _ => none
  | fuel + 1, raws, s, some _ =>
    match ADC_Handler (raws 0) s with
    | none => none
    | some (s2, p2) =>
      match chainConv fuel (fun k => raws (k + 1)) s2 p2 with
      | none => none
      | some (sf, vs) => some (sf, s.iReadInput :: vs)

/-- One full round, as driven by TC3_Handler (ctrlTimer.cpp lines 12-23):
ADC_UpdateBufferIdx, then ADC_StartRead, then the chain of
conversion-complete events until the scheduler finds no further channel. -/
def fullRound (raws : Nat → Nat) (s0 : AdcState) : Option (AdcState × List Int) :=
  let s1 := ADC_UpdateBufferIdx s0
  let sp := ADC_StartRead s1
  chainConv (N_ADC_INPUT + 1) raws sp.1 sp.2

/-- The control skeleton of the conversion chain: the visited channels and
the final reading channel depend only on the mask and the current reading
channel; this pure recursion mirrors chainConv step for step. -/
def pureChain : Nat → Nat → Option Nat → Int → Option (List Int × Int)
  | _, _, none, cur => some ([], cur)
  | 0, _, some _, _ => none
  | fuel + 1, m, some _, cur =>
    let p2 := scanNext m cur
    let cur2 := match p2 with | some i => (i : Int) | none => cur
    match pureChain fuel m p2 cur2 with
    | none => none
    | some (vs, fin) => some (cur :: vs, fin)

/-- The round skeleton started from the idle reading channel -1 (the value
ADC_UpdateBufferIdx resets to). -/
def roundSpec (m : Nat) : Option (List Int × Int) :=
  let p := scanNext m (-1)
  pureChain (N_ADC_INPUT + 1) m p (match p with | some i => (i : Int) | none => -1)

/-- Well-formed dimensions of ADC_buffer: 5 channels, 64 buffers of 16
positions each (its C declared extents). -/
def wfBuffer (buf : List (List (List Int))) : Prop :=
  buf.length = N_ADC_INPUT ∧
    ∀ ch ∈ buf, ch.length = N_ADC_BUFFERS ∧ ∀ fr ∈ ch, fr.length = N_ADC_BUFFER_POS

/-- All stored samples fit int16_t. -/
def bufInRange (buf : List (List (List Int))) : Prop :=
  ∀ ch ∈ buf, ∀ fr ∈ ch, ∀ v ∈ fr, -32768 ≤ v ∧ v < 32768

/-- The zero-initialized ADC_buffer (C file-scope array initialization). -/
def initBuffer : List (List (List Int)) :=
  List.replicate N_ADC_INPUT (List.replicate N_ADC_BUFFERS (List.replicate N_ADC_BUFFER_POS 0))

/-- The startup values of the ctrlADC.cpp globals (lines 9-14), with the
enabled mask as a parameter (it is mutated by external configuration). -/
def adcInitState (mask : Nat) : AdcState :=
  { ADC_EnabledInputs := mask
    ADC_buffer := initBuffer
    iBuffer := 0
    iBufferPos := 0
    iBufferTransmit := 0xff
    iReadInput := -1 }

/-- Gain codes of the SAMD21 device header (ADC_INPUTCTRL_GAIN_..X_Val),
external collaborator constants used by ADC_setGain. -/
def ADC_INPUTCTRL_GAIN_1X_Val : Nat := 0x0

/-- SAMD21 gain code for 2x. -/
def ADC_INPUTCTRL_GAIN_2X_Val : Nat := 0x1

/-- SAMD21 gain code for 4x. -/
def ADC_INPUTCTRL_GAIN_4X_Val : Nat := 0x2

/-- SAMD21 gain code for 8x. -/
def ADC_INPUTCTRL_GAIN_8X_Val : Nat := 0x3

/-- SAMD21 gain code for 16x. -/
def ADC_INPUTCTRL_GAIN_16X_Val : Nat := 0x4

/-- The state touched by ADC_setGain: the peripheral gain register
ADC->INPUTCTRL.bit.GAIN and the recorded active gain ADC_Gain (uint8_t,
ctrlADC.cpp line 16). -/
structure GainState where
  inputctrlGain : Nat
  ADC_Gain : Nat

/-- ADC_setGain (ctrlADC.cpp lines 86-116): switch on the requested gain;
valid values set the peripheral register, record the gain and return true;
any other value returns false before touching anything. -/
def ADC_setGain (Gain_in : Nat) (g : GainState) : Bool × GainState :=
  if Gain_in = 1 then (true, { inputctrlGain := ADC_INPUTCTRL_GAIN_1X_Val, ADC_Gain := Gain_in })
  else if Gain_in = 2 then (true, { inputctrlGain := ADC_INPUTCTRL_GAIN_2X_Val, ADC_Gain := Gain_in })
  else if Gain_in = 4 then (true, { inputctrlGain := ADC_INPUTCTRL_GAIN_4X_Val, ADC_Gain := Gain_in })
  else if Gain_in = 8 then (true, { inputctrlGain := ADC_INPUTCTRL_GAIN_8X_Val, ADC_Gain := Gain_in })
  else if Gain_in = 16 then (true, { inputctrlGain := ADC_INPUTCTRL_GAIN_16X_Val, ADC_Gain := Gain_in })
  else (false, g)

/-- CPU_HZ from ctrlTimer.h. -/
def CPU_HZ : Int := 48000000

/-- TIMER_PRESCALER_DIV from ctrlTimer.h. -/
def TIMER_PRESCALER_DIV : Int := 1024

/-- The timer registers setTimerFrequency touches: TC->COUNT.reg and
TC->CC[0].reg, both 16-bit (TC_CTRLA_MODE_COUNT16). -/
structure TimerState where
  COUNT : Nat
  CC0 : Nat

/-- The Arduino core map() function used by setTimerFrequency:
(x - in_min) * (out_max - out_min) / (in_max - in_min) + out_min, in C long
arithmetic, whose division truncates toward zero. -/
def arduinoMap (x inMin inMax outMin outMax : Int) : Int :=
  Int.tdiv ((x - inMin) * (outMax - outMin)) (inMax - inMin) + outMin

/-- setTimerFrequency (ctrlTimer.cpp lines 26-37): compute the compare
value, rescale COUNT with map() against the old CC[0], install the compare
value.  Writes to the 16-bit registers truncate mod 2^16 (the C narrowing
conversion). -/
def setTimerFrequency (frequencyHz : Int) (t : TimerState) : TimerState :=
  let compareValue : Int := Int.tdiv CPU_HZ (TIMER_PRESCALER_DIV * frequencyHz) - 1
  let newCount : Int := arduinoMap (t.COUNT : Int) 0 (t.CC0 : Int) 0 compareValue
  { COUNT := (newCount % 65536).toNat, CC0 := (compareValue % 65536).toNat }

/-- The two bytes the serializer writes for one int16_t sample
(ctrlADC.cpp lines 61-62): (uint8_t)sample then (uint8_t)(sample >> 8),
i.e. the 16-bit two's complement pattern least-significant byte first. -/
def sampleBytes (v : Int) : List Nat :=
  [(v % 65536).toNat % 256, (v % 65536).toNat / 256]

/-- The bytes of a whole 16-position frame row, position ascending. -/
def samplesBytes : List Int → List Nat
  | [] => []
  | v :: vs => sampleBytes v ++ samplesBytes vs

/-- The inner position loop of ADC_UdpTransmit reads exactly positions
0..N_ADC_BUFFER_POS-1 of one channel row; Option-valued when the row does
not have that extent. -/
def frameBytes (fr : List Int) : Option (List Nat) :=
  if fr.length = N_ADC_BUFFER_POS then some (samplesBytes fr) else none

/-- The channel loop of ADC_UdpTransmit: for each enabled channel index in
ascending order, the 32 bytes of ADC_buffer[iInput][iBuffer_in][0..15]. -/
def collectParts (buf : List (List (List Int))) (iBuffer_in : Nat) :
    List Nat → Option (List Nat)
  | [] => some []
  | i :: is =>
    match buf[i]? with
    | none => none
    | some ch =>
      match ch[iBuffer_in]? with
      | none => none
      | some fr =>
        match frameBytes fr with
        | none => none
        | some fb =>
          match collectParts buf iBuffer_in is with
          | none => none
          | some rest => some (fb ++ rest)

/-- ADC_UdpTransmit (ctrlADC.cpp lines 50-67): the payload written between
beginPacket and endPacket: DataType byte, iBuffer_in byte, the enabled mask
byte, then per enabled channel ascending the 16 samples little-endian. -/
def ADC_UdpTransmit (s : AdcState) (iBuffer_in : Nat) (DataType : Nat) : Option (List Nat) :=
  match collectParts s.ADC_buffer iBuffer_in
      ((List.range N_ADC_INPUT).filter (fun i => s.ADC_EnabledInputs.testBit i)) with
  | none => none
  | some body => some (DataType :: iBuffer_in :: s.ADC_EnabledInputs :: body)

/-- The four-argument ADC_UdpTransmit overload (ctrlADC.cpp lines 45-47):
the data type tag defaults to the character D = 68. -/
def ADC_UdpTransmitD (s : AdcState) (iBuffer_in : Nat) : Option (List Nat) :=
  ADC_UdpTransmit s iBuffer_in 68

/-- Decoder side of the wire format (section 6 of the specification; the
source has no decoder, the round-trip property interprets the payload per
the documented format): one sample from two bytes, least-significant first,
16-bit two's complement. -/
def decodeSample (b0 b1 : Nat) : Int :=
  let u := b0 + 256 * b1
  if u < 32768 then (u : Int) else (u : Int) - 65536

/-- Decode n consecutive samples, returning them and the remaining bytes. -/
def decodeSamples : List Nat → Nat → Option (List Int × List Nat)
  | rest, 0 => some ([], rest)
  | b0 :: b1 :: rest, n + 1 =>
    match decodeSamples rest n with
    | some (vs, r) => some (decodeSample b0 b1 :: vs, r)
    | none => none
  | _, _ + 1 => none

/-- Decode the per-channel sections for the given ascending channel list;
every byte must be consumed. -/
def decodeChannels : List Nat → List Nat → Option (List (Nat × List Int))
  | [], bytes => if bytes.isEmpty then some [] else none
  | c :: cs, bytes =>
    match decodeSamples bytes N_ADC_BUFFER_POS with
    | some (fr, rest) =>
      match decodeChannels cs rest with
      | some t => some ((c, fr) :: t)
      | none => none
    | none => none

/-- Decode a whole payload: tag, buffer index, mask, then the sections of
the channels whose bits are set in the mask, ascending. -/
def decodePayload (p : List Nat) : Option (Nat × Nat × Nat × List (Nat × List Int)) :=
  match p with
  | tag :: ib :: mask :: body =>
    match decodeChannels ((List.range N_ADC_INPUT).filter (fun i => mask.testBit i)) body with
    | some chans => some (tag, ib, mask, chans)
    | none => none
  | _ => none

/-! ## Helper lemmas -/

theorem wf_initBuffer : wfBuffer initBuffer := by
  refine ⟨by simp [initBuffer], ?_⟩
  intro ch hch
  rw [List.eq_of_mem_replicate hch]
  refine ⟨by simp, ?_⟩
  intro fr hfr
  rw [List.eq_of_mem_replicate hfr]
  simp

theorem inRange_initBuffer : bufInRange initBuffer := by
  intro ch hch fr hfr v hv
  rw [List.eq_of_mem_replicate hch] at hfr
  rw [List.eq_of_mem_replicate hfr] at hv
  rw [List.eq_of_mem_replicate hv]
  norm_num

/-! ## C7: round-advance with empty mask is a no-op -/

/-- Claim C7: when the enabled-channel mask is zero, ADC_UpdateBufferIdx
leaves the whole state (iBuffer, iBufferPos, iBufferTransmit, iReadInput)
unchanged, across any number of calls. -/
theorem roundAdvance_empty_mask_noop (s : AdcState) (h : s.ADC_EnabledInputs = 0) :
    ADC_UpdateBufferIdx s = s ∧ ∀ n : Nat, ADC_UpdateBufferIdx^[n] s = s := by
  have h1 : ADC_UpdateBufferIdx s = s := by simp [ADC_UpdateBufferIdx, h]
  exact ⟨h1, fun n => Function.iterate_fixed h1 n⟩

/-- Witness for C7 at the startup state with mask 0. -/
theorem roundAdvance_empty_mask_noop_witness :
    ADC_UpdateBufferIdx (adcInitState 0) = adcInitState 0 ∧
      ∀ n : Nat, ADC_UpdateBufferIdx^[n] (adcInitState 0) = adcInitState 0 :=
  roundAdvance_empty_mask_noop (adcInitState 0) rfl

/-! ## C2: buffer bookkeeping after P round-advances -/

theorem updateIter_nowrap : ∀ (n : Nat) (s : AdcState), s.ADC_EnabledInputs ≠ 0 →
    s.iBufferPos + n + 1 < N_ADC_BUFFER_POS →
    ADC_UpdateBufferIdx^[n + 1] s =
      { s with iBufferPos := s.iBufferPos + n + 1, iReadInput := -1 } := by
  intro n
  induction n with
  | zero =>
    intro s hm hlt
    have hne : ¬ s.iBufferPos + 1 = N_ADC_BUFFER_POS := by omega
    simp [ADC_UpdateBufferIdx, hm, hne]
  | succ k ih =>
    intro s hm hlt
    rw [Function.iterate_succ_apply]
    have hne : ¬ s.iBufferPos + 1 = N_ADC_BUFFER_POS := by omega
    have hstep : ADC_UpdateBufferIdx s =
        { s with iBufferPos := s.iBufferPos + 1, iReadInput := -1 } := by
      simp [ADC_UpdateBufferIdx, hm, hne]
    rw [hstep, ih _ (by exact hm) (by simp; omega)]
    simp
    omega

/-- Claim C2: from positionIndex 0 with a non-empty mask, exactly
N_ADC_BUFFER_POS = 16 calls of ADC_UpdateBufferIdx advance iBuffer by one
modulo N_ADC_BUFFERS = 64, return iBufferPos to 0, and set iBufferTransmit
to the buffer index that was active before the 16th call (overwriting any
prior value). -/
theorem buffer_advance_after_P_rounds (s : AdcState) (hm : s.ADC_EnabledInputs ≠ 0)
    (hp : s.iBufferPos = 0) :
    (ADC_UpdateBufferIdx^[N_ADC_BUFFER_POS] s).iBuffer = (s.iBuffer + 1) % N_ADC_BUFFERS ∧
      (ADC_UpdateBufferIdx^[N_ADC_BUFFER_POS] s).iBufferPos = 0 ∧
      (ADC_UpdateBufferIdx^[N_ADC_BUFFER_POS] s).iBufferTransmit = s.iBuffer := by
  have h16 : N_ADC_BUFFER_POS = 15 + 1 := rfl
  rw [h16, Function.iterate_succ_apply']
  have h15 : ADC_UpdateBufferIdx^[15] s =
      { s with iBufferPos := s.iBufferPos + 15, iReadInput := -1 } :=
    updateIter_nowrap 14 s hm (by omega)
  rw [h15]
  have hwrap : (s.iBufferPos + 15) + 1 = N_ADC_BUFFER_POS := by
    simp [N_ADC_BUFFER_POS]; omega
  simp [ADC_UpdateBufferIdx, hm, hwrap, N_ADC_BUFFERS]
  omega

/-- Witness for C2 at a concrete state. -/
theorem buffer_advance_after_P_rounds_witness :
    (ADC_UpdateBufferIdx^[N_ADC_BUFFER_POS] (adcInitState 3)).iBuffer = (0 + 1) % N_ADC_BUFFERS ∧
      (ADC_UpdateBufferIdx^[N_ADC_BUFFER_POS] (adcInitState 3)).iBufferPos = 0 ∧
      (ADC_UpdateBufferIdx^[N_ADC_BUFFER_POS] (adcInitState 3)).iBufferTransmit = 0 :=
  buffer_advance_after_P_rounds (adcInitState 3) (by decide) rfl

/-! ## C3: sign extension of the 12-bit reading -/

theorem signExt_decide : ∀ a : Nat, a < 64 → ∀ b : Nat, b < 64 →
    ((64 * a + b).testBit 11 = true →
        convertSample (64 * a + b) = ((64 * a + b : Nat) : Int) - 4096 ∧
          ((convertSample (64 * a + b)).emod 65536).toNat = (64 * a + b) ||| 0xf000) ∧
      ((64 * a + b).testBit 11 = false →
        convertSample (64 * a + b) = ((64 * a + b : Nat) : Int)) := by
  set_option maxRecDepth 4000 in decide

/-- Claim C3: the conversion in ADC_Handler maps a raw 12-bit reading to a
signed 16-bit sample by testing bit 11: when set, every bit above the
native 12-bit width is set in the 16-bit pattern (value raw | 0xf000, i.e.
raw - 4096 as a signed value); when clear, the value is unchanged.  In
particular 0x0fff gives -1, 0x07ff gives 2047, 0 gives 0. -/
theorem sample_sign_extension (raw : Nat) (h : raw < 4096) :
    (raw.testBit 11 = true →
        convertSample raw = (raw : Int) - 4096 ∧
          ((convertSample raw).emod 65536).toNat = raw ||| 0xf000) ∧
      (raw.testBit 11 = false → convertSample raw = (raw : Int)) ∧
      convertSample 0x0fff = -1 ∧ convertSample 0x07ff = 2047 ∧ convertSample 0 = 0 := by
  have key := signExt_decide (raw / 64) (by omega) (raw % 64) (by omega)
  have heq : 64 * (raw / 64) + raw % 64 = raw := Nat.div_add_mod raw 64
  rw [heq] at key
  exact ⟨key.1, key.2, by decide, by decide, by decide⟩

/-- Witness for C3 at raw = 0x0fff. -/
theorem sample_sign_extension_witness :
    ((0x0fff : Nat).testBit 11 = true →
        convertSample 0x0fff = (0x0fff : Int) - 4096 ∧
          ((convertSample 0x0fff).emod 65536).toNat = 0x0fff ||| 0xf000) ∧
      ((0x0fff : Nat).testBit 11 = false → convertSample 0x0fff = (0x0fff : Int)) ∧
      convertSample 0x0fff = -1 ∧ convertSample 0x07ff = 2047 ∧ convertSample 0 = 0 :=
  sample_sign_extension 0x0fff (by decide)

/-! ## C6: gain validation -/

/-- Claim C6: ADC_setGain accepts exactly 1, 2, 4, 8, 16.  A valid value
programs the peripheral gain register with the corresponding device code,
records the active gain and returns true; any other value returns false and
changes nothing.  In particular setGain 3 fails leaving the state intact
and setGain 8 succeeds with active gain 8. -/
theorem setGain_valid_set (g : GainState) (v : Nat)
    (hv : ¬(v = 1 ∨ v = 2 ∨ v = 4 ∨ v = 8 ∨ v = 16)) :
    ADC_setGain v g = (false, g) ∧
      ADC_setGain 1 g = (true, { inputctrlGain := ADC_INPUTCTRL_GAIN_1X_Val, ADC_Gain := 1 }) ∧
      ADC_setGain 2 g = (true, { inputctrlGain := ADC_INPUTCTRL_GAIN_2X_Val, ADC_Gain := 2 }) ∧
      ADC_setGain 4 g = (true, { inputctrlGain := ADC_INPUTCTRL_GAIN_4X_Val, ADC_Gain := 4 }) ∧
      ADC_setGain 8 g = (true, { inputctrlGain := ADC_INPUTCTRL_GAIN_8X_Val, ADC_Gain := 8 }) ∧
      ADC_setGain 16 g = (true, { inputctrlGain := ADC_INPUTCTRL_GAIN_16X_Val, ADC_Gain := 16 }) ∧
      ADC_setGain 3 g = (false, g) := by
  push_neg at hv
  obtain ⟨h1, h2, h4, h8, h16⟩ := hv
  refine ⟨by simp [ADC_setGain, h1, h2, h4, h8, h16], ?_, ?_, ?_, ?_, ?_, ?_⟩ <;>
    simp [ADC_setGain]

/-- Witness for C6 at v = 3 on a concrete prior state. -/
theorem setGain_valid_set_witness :
    ADC_setGain 3 ⟨ADC_INPUTCTRL_GAIN_2X_Val, 2⟩ = (false, ⟨ADC_INPUTCTRL_GAIN_2X_Val, 2⟩) ∧
      ADC_setGain 1 ⟨ADC_INPUTCTRL_GAIN_2X_Val, 2⟩ =
        (true, { inputctrlGain := ADC_INPUTCTRL_GAIN_1X_Val, ADC_Gain := 1 }) ∧
      ADC_setGain 2 ⟨ADC_INPUTCTRL_GAIN_2X_Val, 2⟩ =
        (true, { inputctrlGain := ADC_INPUTCTRL_GAIN_2X_Val, ADC_Gain := 2 }) ∧
      ADC_setGain 4 ⟨ADC_INPUTCTRL_GAIN_2X_Val, 2⟩ =
        (true, { inputctrlGain := ADC_INPUTCTRL_GAIN_4X_Val, ADC_Gain := 4 }) ∧
      ADC_setGain 8 ⟨ADC_INPUTCTRL_GAIN_2X_Val, 2⟩ =
        (true, { inputctrlGain := ADC_INPUTCTRL_GAIN_8X_Val, ADC_Gain := 8 }) ∧
      ADC_setGain 16 ⟨ADC_INPUTCTRL_GAIN_2X_Val, 2⟩ =
        (true, { inputctrlGain := ADC_INPUTCTRL_GAIN_16X_Val, ADC_Gain := 16 }) ∧
      ADC_setGain 3 ⟨ADC_INPUTCTRL_GAIN_2X_Val, 2⟩ = (false, ⟨ADC_INPUTCTRL_GAIN_2X_Val, 2⟩) :=
  setGain_valid_set ⟨ADC_INPUTCTRL_GAIN_2X_Val, 2⟩ 3 (by decide)

/-! ## C9: compare value formula -/

/-- Claim C9: for positive hz with 1024 * hz not above the 48 MHz clock,
setTimerFrequency installs compare = floor(48000000 / (1024 * hz)) - 1 in
CC[0]. -/
theorem timer_compare_formula (hz : Nat) (t : TimerState) (h1 : 0 < hz)
    (h2 : 1024 * hz ≤ 48000000) :
    (setTimerFrequency (hz : Int) t).CC0 = 48000000 / (1024 * hz) - 1 := by
  have hq1 : 1 ≤ 48000000 / (1024 * hz) := by
    rw [Nat.le_div_iff_mul_le (by omega)]
    omega
  have hq2 : 48000000 / (1024 * hz) ≤ 46875 := by
    calc 48000000 / (1024 * hz) ≤ 48000000 / (1024 * 1) :=
          Nat.div_le_div_left (by omega) (by omega)
      _ = 46875 := by norm_num
  have hcast : TIMER_PRESCALER_DIV * (hz : Int) = ((1024 * hz : Nat) : Int) := by
    simp [TIMER_PRESCALER_DIV]
  have htdiv : Int.tdiv CPU_HZ ((1024 * hz : Nat) : Int) =
      ((48000000 / (1024 * hz) : Nat) : Int) := rfl
  simp only [setTimerFrequency, hcast, htdiv]
  omega

/-- Witness for C9 at hz = 100 (compare = 468 - 1 = 467). -/
theorem timer_compare_formula_witness :
    (setTimerFrequency ((100 : Nat) : Int) ⟨0, 0⟩).CC0 = 48000000 / (1024 * 100) - 1 :=
  timer_compare_formula 100 ⟨0, 0⟩ (by decide) (by decide)

/-! ## C5: phase rescaling on frequency change -/

/-- Counterexample to claim C5: with COUNT = 5 and CC[0] = 6, changing to
15625 Hz gives the new compare value 2, and the code rescales the phase to
5 * 2 / 6 = 1 by truncating division (the Arduino map function), while the
claimed formula round(oldPhase * compare_new / compare_old) gives 2. -/
theorem phase_rescale_not_rounded :
    (setTimerFrequency 15625 ⟨5, 6⟩).CC0 = 2 ∧
      (setTimerFrequency 15625 ⟨5, 6⟩).COUNT = 1 ∧
      round ((5 * 2 : ℚ) / 6) = 2 ∧
      (setTimerFrequency 15625 ⟨5, 6⟩).COUNT ≠ 2 := by
  refine ⟨by decide, by decide, ?_, by decide⟩
  rw [round_eq]
  norm_num

/-- Claim C5 as amended: when changing frequency while running, the phase is
rescaled linearly with TRUNCATING integer division (Arduino map), not
rounding: newCount = oldCount * compare_new / compare_old (floor), and the
new compare value is installed.  The last hypothesis scopes the statement to
readings where the C long multiplication inside map cannot overflow. -/
theorem phase_rescale_truncated (hz : Nat) (t : TimerState) (h1 : 0 < hz)
    (h2 : 1024 * hz ≤ 48000000) (h3 : 0 < t.CC0) (h4 : t.COUNT ≤ t.CC0)
    (_h5 : t.COUNT * (48000000 / (1024 * hz) - 1) < 2 ^ 31) :
    (setTimerFrequency (hz : Int) t).COUNT =
        t.COUNT * (48000000 / (1024 * hz) - 1) / t.CC0 ∧
      (setTimerFrequency (hz : Int) t).CC0 = 48000000 / (1024 * hz) - 1 := by
  have hq1 : 1 ≤ 48000000 / (1024 * hz) := by
    rw [Nat.le_div_iff_mul_le (by omega)]
    omega
  have hq2 : 48000000 / (1024 * hz) ≤ 46875 := by
    calc 48000000 / (1024 * hz) ≤ 48000000 / (1024 * 1) :=
          Nat.div_le_div_left (by omega) (by omega)
      _ = 46875 := by norm_num
  set q := 48000000 / (1024 * hz) with hqdef
  have hcast : TIMER_PRESCALER_DIV * (hz : Int) = ((1024 * hz : Nat) : Int) := by
    simp [TIMER_PRESCALER_DIV]
  have htdiv : Int.tdiv CPU_HZ ((1024 * hz : Nat) : Int) = ((q : Nat) : Int) := rfl
  have hA : ((t.COUNT * (q - 1) : Nat) : Int) = (t.COUNT : Int) * ((q : Int) - 1) := by
    rw [Nat.cast_mul, Nat.cast_sub hq1]
    norm_num
  have hB : Int.tdiv ((t.COUNT * (q - 1) : Nat) : Int) ((t.CC0 : Nat) : Int) =
      ((t.COUNT * (q - 1) / t.CC0 : Nat) : Int) := rfl
  have hle : t.COUNT * (q - 1) / t.CC0 ≤ q - 1 := by
    calc t.COUNT * (q - 1) / t.CC0 ≤ t.CC0 * (q - 1) / t.CC0 :=
          Nat.div_le_div_right (Nat.mul_le_mul_right _ h4)
      _ = q - 1 := Nat.mul_div_cancel_left _ h3
  simp only [setTimerFrequency, arduinoMap, hcast, htdiv, sub_zero, add_zero, ← hA, hB]
  generalize t.COUNT * (q - 1) / t.CC0 = A at hle ⊢
  omega

/-- Witness for the amended C5 at 75 Hz from COUNT 311, CC0 622: the new
compare value is 624 and the phase lands at 311 * 624 / 622 = 311. -/
theorem phase_rescale_truncated_witness :
    (setTimerFrequency ((75 : Nat) : Int) ⟨311, 622⟩).COUNT =
        311 * (48000000 / (1024 * 75) - 1) / 622 ∧
      (setTimerFrequency ((75 : Nat) : Int) ⟨311, 622⟩).CC0 = 48000000 / (1024 * 75) - 1 :=
  phase_rescale_truncated 75 ⟨311, 622⟩ (by decide) (by decide) (by decide) (by decide)
    (by decide)

/-! ## C4: the channel scheduler -/

theorem findEnabled_some {mask : Nat} {cur : Int} :
    ∀ {l : List Nat} {i : Nat}, findEnabled mask cur l = some i →
      i ∈ l ∧ cur < (i : Int) ∧ mask.testBit i = true := by
  intro l
  induction l with
  | nil => intro i h; simp [findEnabled] at h
  | cons a as ih =>
    intro i h
    by_cases hc : cur < (a : Int) ∧ mask.testBit a
    · rw [findEnabled, if_pos hc] at h
      obtain rfl : a = i := by injection h
      exact ⟨List.mem_cons_self a as, hc.1, hc.2⟩
    · rw [findEnabled, if_neg hc] at h
      obtain ⟨h1, h2, h3⟩ := ih h
      exact ⟨List.mem_cons_of_mem a h1, h2, h3⟩

theorem findEnabled_none {mask : Nat} {cur : Int} :
    ∀ {l : List Nat}, findEnabled mask cur l = none ↔
      ∀ i ∈ l, cur < (i : Int) → mask.testBit i = false := by
  intro l
  induction l with
  | nil => simp [findEnabled]
  | cons a as ih =>
    by_cases hc : cur < (a : Int) ∧ mask.testBit a
    · rw [findEnabled, if_pos hc]
      refine iff_of_false (by simp) (fun h => ?_)
      have hfa := h a (List.mem_cons_self a as) hc.1
      rw [hc.2] at hfa
      cases hfa
    · rw [findEnabled, if_neg hc, ih]
      constructor
      · intro h i hi hlt
        rcases List.mem_cons.mp hi with rfl | hmem
        · rcases Decidable.em (mask.testBit i = true) with ht | ht
          · exact absurd ⟨hlt, ht⟩ hc
          · simpa using ht
        · exact h i hmem hlt
      · intro h i hi hlt
        exact h i (List.mem_cons_of_mem a hi) hlt

theorem findEnabled_min {mask : Nat} {cur : Int} :
    ∀ {l : List Nat} {i j : Nat}, List.Pairwise (· < ·) l →
      findEnabled mask cur l = some i → j ∈ l → cur < (j : Int) →
      mask.testBit j = true → i ≤ j := by
  intro l
  induction l with
  | nil => intro i j _ h; simp [findEnabled] at h
  | cons a as ih =>
    intro i j hpw h hj hlt ht
    obtain ⟨ha, hpw2⟩ := List.pairwise_cons.mp hpw
    by_cases hc : cur < (a : Int) ∧ mask.testBit a
    · rw [findEnabled, if_pos hc] at h
      obtain rfl : a = i := by injection h
      rcases List.mem_cons.mp hj with rfl | hmem
      · exact Nat.le_refl _
      · exact Nat.le_of_lt (ha j hmem)
    · rw [findEnabled, if_neg hc] at h
      rcases List.mem_cons.mp hj with rfl | hmem
      · exact absurd ⟨hlt, ht⟩ hc
      · exact ih hpw2 h hmem hlt ht

theorem scanNext_some {mask : Nat} {cur : Int} {i : Nat} (h : scanNext mask cur = some i) :
    i < N_ADC_INPUT ∧ cur < (i : Int) ∧ mask.testBit i = true := by
  obtain ⟨h1, h2, h3⟩ := findEnabled_some h
  exact ⟨List.mem_range.mp h1, h2, h3⟩

/-- Claim C4: ADC_StartRead scans only the indices strictly greater than the
current reading channel, without wraparound, up to N_ADC_INPUT - 1, and
selects the first one enabled in the mask: on success it records it as the
reading channel and issues exactly one start-conversion request for it; when
no such index exists (in particular for the all-zero mask) it changes
nothing and issues no request. -/
theorem scheduler_first_enabled_above (s : AdcState) (_h : -1 ≤ s.iReadInput) :
    (∀ i : Nat, (ADC_StartRead s).2 = some i →
        s.iReadInput < (i : Int) ∧ i < N_ADC_INPUT ∧
          s.ADC_EnabledInputs.testBit i = true ∧
          (∀ j : Nat, s.iReadInput < (j : Int) → j < i →
            s.ADC_EnabledInputs.testBit j = false) ∧
          (ADC_StartRead s).1 = { s with iReadInput := (i : Int) }) ∧
      ((ADC_StartRead s).2 = none →
        (ADC_StartRead s).1 = s ∧
          ∀ j : Nat, s.iReadInput < (j : Int) → j < N_ADC_INPUT →
            s.ADC_EnabledInputs.testBit j = false) ∧
      (s.ADC_EnabledInputs = 0 → (ADC_StartRead s).2 = none) := by
  refine ⟨?_, ?_, ?_⟩
  · intro i hi
    have hscan : scanNext s.ADC_EnabledInputs s.iReadInput = some i := by
      rcases hsc : scanNext s.ADC_EnabledInputs s.iReadInput with _ | c
      · rw [ADC_StartRead, hsc] at hi; simp at hi
      · rw [ADC_StartRead, hsc] at hi
        simp only at hi
        injection hi with hi2
        rw [hi2]
    obtain ⟨hlt2, hcur, hbit⟩ := scanNext_some hscan
    refine ⟨hcur, hlt2, hbit, ?_, ?_⟩
    · intro j hj1 hj2
      rcases Decidable.em (s.ADC_EnabledInputs.testBit j = true) with ht | ht
      · have := findEnabled_min (List.pairwise_lt_range N_ADC_INPUT) hscan
          (List.mem_range.mpr (Nat.lt_trans hj2 hlt2)) hj1 ht
        omega
      · simpa using ht
    · rw [ADC_StartRead, hscan]
  · intro hnone
    have hscan : scanNext s.ADC_EnabledInputs s.iReadInput = none := by
      rcases hsc : scanNext s.ADC_EnabledInputs s.iReadInput with _ | c
      · rfl
      · rw [ADC_StartRead, hsc] at hnone; simp at hnone
    refine ⟨by rw [ADC_StartRead, hscan], ?_⟩
    intro j hj1 hj2
    exact findEnabled_none.mp hscan j (List.mem_range.mpr hj2) hj1
  · intro hzero
    rcases hsc : (ADC_StartRead s).2 with _ | c
    · rfl
    · have hscan : scanNext s.ADC_EnabledInputs s.iReadInput = some c := by
        rcases hsc2 : scanNext s.ADC_EnabledInputs s.iReadInput with _ | d
        · rw [ADC_StartRead, hsc2] at hsc; simp at hsc
        · rw [ADC_StartRead, hsc2] at hsc
          simp only at hsc
          injection hsc with hsc3
          rw [hsc3]
      obtain ⟨_, _, hbit⟩ := scanNext_some hscan
      rw [hzero] at hbit
      simp [Nat.zero_testBit] at hbit

/-- Witness for C4 at the startup state with mask 0b01010. -/
theorem scheduler_first_enabled_above_witness :
    (∀ i : Nat, (ADC_StartRead (adcInitState 10)).2 = some i →
        (adcInitState 10).iReadInput < (i : Int) ∧ i < N_ADC_INPUT ∧
          (adcInitState 10).ADC_EnabledInputs.testBit i = true ∧
          (∀ j : Nat, (adcInitState 10).iReadInput < (j : Int) → j < i →
            (adcInitState 10).ADC_EnabledInputs.testBit j = false) ∧
          (ADC_StartRead (adcInitState 10)).1 =
            { adcInitState 10 with iReadInput := (i : Int) }) ∧
      ((ADC_StartRead (adcInitState 10)).2 = none →
        (ADC_StartRead (adcInitState 10)).1 = adcInitState 10 ∧
          ∀ j : Nat, (adcInitState 10).iReadInput < (j : Int) → j < N_ADC_INPUT →
            (adcInitState 10).ADC_EnabledInputs.testBit j = false) ∧
      ((adcInitState 10).ADC_EnabledInputs = 0 →
        (ADC_StartRead (adcInitState 10)).2 = none) :=
  scheduler_first_enabled_above (adcInitState 10) (by decide)

/-! ## C10: handler store stays in bounds exactly on the Reading states -/

theorem bufferStore_some (buf : List (List (List Int))) (i : Int) (b p : Nat) (v : Int)
    (hwf : wfBuffer buf) (h0 : 0 ≤ i) (h1 : i < (N_ADC_INPUT : Int))
    (h2 : b < N_ADC_BUFFERS) (h3 : p < N_ADC_BUFFER_POS) :
    ∃ buf2, bufferStore buf i b p v = some buf2 ∧ wfBuffer buf2 := by
  obtain ⟨hlen, hch⟩ := hwf
  have hi : i.toNat < buf.length := by
    rw [hlen]
    simp only [N_ADC_INPUT] at h1 ⊢
    omega
  have hgetb : buf[i.toNat]? = some buf[i.toNat] := List.getElem?_eq_getElem hi
  obtain ⟨hchlen, hfr⟩ := hch buf[i.toNat] (List.getElem_mem hi)
  have hb : b < buf[i.toNat].length := by rw [hchlen]; exact h2
  have hgetc : buf[i.toNat][b]? = some buf[i.toNat][b] := List.getElem?_eq_getElem hb
  have hfrlen := (hfr buf[i.toNat][b] (List.getElem_mem hb)).symm
  have hp : p < buf[i.toNat][b].length := by rw [← hfrlen]; exact h3
  refine ⟨buf.set i.toNat (buf[i.toNat].set b (buf[i.toNat][b].set p v)), ?_, ?_, ?_⟩
  · simp only [bufferStore, hgetb, hgetc]
    rw [if_pos ⟨h0, hi⟩, if_pos hp]
  · simp [hlen]
  · intro ch2 hmem2
    rcases List.mem_or_eq_of_mem_set hmem2 with hin | rfl
    · exact hch ch2 hin
    · refine ⟨by simp [hchlen], ?_⟩
      intro fr2 hmem3
      rcases List.mem_or_eq_of_mem_set hmem3 with hin2 | rfl
      · exact hfr fr2 hin2
      · simp [← hfrlen]

/-- Claim C10: whenever the Reading precondition holds (reading channel in
[0, N_ADC_INPUT), buffer index in [0, N_ADC_BUFFERS), position in
[0, N_ADC_BUFFER_POS)) the sample store of ADC_Handler is within bounds —
the Option-valued indexing succeeds — and the precondition on the reading
channel is necessary: in the Idle state (iReadInput = -1, the value
round-advance resets to) the store indexes the first dimension at -1 and
fails. -/
theorem handler_store_in_bounds (s : AdcState) (raw : Nat) (h0 : 0 ≤ s.iReadInput)
    (h1 : s.iReadInput < (N_ADC_INPUT : Int)) (h2 : s.iBuffer < N_ADC_BUFFERS)
    (h3 : s.iBufferPos < N_ADC_BUFFER_POS) (hwf : wfBuffer s.ADC_buffer) :
    (ADC_Handler raw s).isSome = true ∧
      ∀ (s2 : AdcState) (raw2 : Nat), s2.iReadInput = -1 → ADC_Handler raw2 s2 = none := by
  constructor
  · obtain ⟨buf2, hst, _⟩ := bufferStore_some s.ADC_buffer s.iReadInput s.iBuffer
      s.iBufferPos (convertSample raw) hwf h0 h1 h2 h3
    simp [ADC_Handler, hst]
  · intro s2 raw2 hidle
    have hnone : bufferStore s2.ADC_buffer s2.iReadInput s2.iBuffer s2.iBufferPos
        (convertSample raw2) = none := by
      rw [hidle]
      simp [bufferStore]
    simp [ADC_Handler, hnone]

/-- Witness for C10 at a concrete Reading state. -/
theorem handler_store_in_bounds_witness :
    (ADC_Handler 0 { adcInitState 5 with iReadInput := 0 }).isSome = true ∧
      ∀ (s2 : AdcState) (raw2 : Nat), s2.iReadInput = -1 → ADC_Handler raw2 s2 = none :=
  handler_store_in_bounds { adcInitState 5 with iReadInput := 0 } 0 (by decide) (by decide)
    (by decide) (by decide) wf_initBuffer

/-! ## C1: a full round visits the enabled channels ascending -/

theorem update_preserves (s : AdcState) (hne : s.ADC_EnabledInputs ≠ 0)
    (hb : s.iBuffer < N_ADC_BUFFERS) (hp : s.iBufferPos < N_ADC_BUFFER_POS) :
    (ADC_UpdateBufferIdx s).ADC_EnabledInputs = s.ADC_EnabledInputs ∧
      (ADC_UpdateBufferIdx s).ADC_buffer = s.ADC_buffer ∧
      (ADC_UpdateBufferIdx s).iReadInput = -1 ∧
      (ADC_UpdateBufferIdx s).iBuffer < N_ADC_BUFFERS ∧
      (ADC_UpdateBufferIdx s).iBufferPos < N_ADC_BUFFER_POS := by
  unfold ADC_UpdateBufferIdx
  rw [if_pos hne]
  by_cases hw : s.iBufferPos + 1 = N_ADC_BUFFER_POS
  · rw [if_pos hw]
    refine ⟨rfl, rfl, rfl, ?_, ?_⟩
    · exact Nat.mod_lt _ (by norm_num [N_ADC_BUFFERS])
    · norm_num [N_ADC_BUFFER_POS]
  · rw [if_neg hw]
    refine ⟨rfl, rfl, rfl, hb, ?_⟩
    simp only [N_ADC_BUFFER_POS] at hp hw ⊢
    omega

theorem chainConv_pure : ∀ (fuel : Nat) (raws : Nat → Nat) (s : AdcState) (p : Option Nat),
    wfBuffer s.ADC_buffer → s.iBuffer < N_ADC_BUFFERS → s.iBufferPos < N_ADC_BUFFER_POS →
    (∀ c : Nat, p = some c → s.iReadInput = (c : Int) ∧ c < N_ADC_INPUT) →
    (chainConv fuel raws s p).map (fun r => (r.2, r.1.iReadInput)) =
      pureChain fuel s.ADC_EnabledInputs p s.iReadInput := by
  intro fuel
  induction fuel with
  | zero =>
    intro raws s p _ _ _ _
    cases p <;> rfl
  | succ fuel ih =>
    intro raws s p hwf hb hp hinv
    cases p with
    | none => rfl
    | some c =>
      obtain ⟨hcur, hclt⟩ := hinv c rfl
      have h0 : (0 : Int) ≤ s.iReadInput := by rw [hcur]; exact Int.natCast_nonneg c
      have h1 : s.iReadInput < (N_ADC_INPUT : Int) := by rw [hcur]; exact_mod_cast hclt
      obtain ⟨buf2, hst, hwf2⟩ := bufferStore_some s.ADC_buffer s.iReadInput s.iBuffer
        s.iBufferPos (convertSample (raws 0)) hwf h0 h1 hb hp
      rw [hcur] at hst
      rcases hsc : scanNext s.ADC_EnabledInputs (c : Int) with _ | i
      · simp only [chainConv, ADC_Handler, hst, ADC_StartRead, hcur, hsc, pureChain]
        rfl
      · obtain ⟨hilt, hci, hbit⟩ := scanNext_some hsc
        have ihx := ih (fun k => raws (k + 1))
          { s with ADC_buffer := buf2, iReadInput := (i : Int) } (some i) hwf2 hb hp
          (fun c2 hc2 => by injection hc2 with h2; exact ⟨by rw [h2], by rw [← h2]; exact hilt⟩)
        simp only at ihx
        simp only [chainConv, ADC_Handler, hst, ADC_StartRead, hcur, hsc, pureChain]
        rcases hrec : chainConv fuel (fun k => raws (k + 1))
            { s with ADC_buffer := buf2, iReadInput := (i : Int) } (some i) with _ | r
        · rw [hrec] at ihx
          simp only [Option.map_none'] at ihx
          rw [← ihx]
          rfl
        · obtain ⟨sf, vs⟩ := r
          rw [hrec] at ihx
          simp only [Option.map_some'] at ihx
          rw [← ihx]
          rfl

theorem fullRound_pure (raws : Nat → Nat) (s0 : AdcState) (hne : s0.ADC_EnabledInputs ≠ 0)
    (hwf : wfBuffer s0.ADC_buffer) (hb : s0.iBuffer < N_ADC_BUFFERS)
    (hp : s0.iBufferPos < N_ADC_BUFFER_POS) :
    (fullRound raws s0).map (fun r => (r.2, r.1.iReadInput)) =
      roundSpec s0.ADC_EnabledInputs := by
  obtain ⟨hmask, hbuf, hidle, hb1, hp1⟩ := update_preserves s0 hne hb hp
  have hwf1 : wfBuffer (ADC_UpdateBufferIdx s0).ADC_buffer := by rw [hbuf]; exact hwf
  rcases hsc : scanNext s0.ADC_EnabledInputs (-1 : Int) with _ | i
  · have hsc1 : scanNext (ADC_UpdateBufferIdx s0).ADC_EnabledInputs
        (ADC_UpdateBufferIdx s0).iReadInput = none := by rw [hmask, hidle]; exact hsc
    have hstart : ADC_StartRead (ADC_UpdateBufferIdx s0) = (ADC_UpdateBufferIdx s0, none) := by
      unfold ADC_StartRead
      rw [hsc1]
    simp only [fullRound, hstart, chainConv, roundSpec, hsc, pureChain, Option.map_some']
    rw [hidle]
  · have hsc1 : scanNext (ADC_UpdateBufferIdx s0).ADC_EnabledInputs
        (ADC_UpdateBufferIdx s0).iReadInput = some i := by rw [hmask, hidle]; exact hsc
    have hstart : ADC_StartRead (ADC_UpdateBufferIdx s0) =
        ({ ADC_UpdateBufferIdx s0 with iReadInput := (i : Int) }, some i) := by
      unfold ADC_StartRead
      rw [hsc1]
    obtain ⟨hilt, _, _⟩ := scanNext_some hsc
    have hx := chainConv_pure (N_ADC_INPUT + 1) raws
      { ADC_UpdateBufferIdx s0 with iReadInput := (i : Int) } (some i) hwf1 hb1 hp1
      (fun c2 hc2 => by injection hc2 with h2; exact ⟨by rw [h2], by rw [← h2]; exact hilt⟩)
    simp only at hx
    have hrs : roundSpec s0.ADC_EnabledInputs =
        pureChain (N_ADC_INPUT + 1) s0.ADC_EnabledInputs (some i) ((i : Nat) : Int) := by
      simp only [roundSpec, hsc]
    have hfull : fullRound raws s0 = chainConv (N_ADC_INPUT + 1) raws
        { ADC_UpdateBufferIdx s0 with iReadInput := (i : Int) } (some i) := by
      simp only [fullRound, hstart]
    rw [hfull, hrs, ← hmask]
    exact hx

theorem roundSpec_complete : ∀ m : Nat, m < 32 → m ≠ 0 →
    (roundSpec m).map Prod.fst =
        some (((List.range N_ADC_INPUT).filter (fun i => m.testBit i)).map (fun i => (i : Int))) ∧
      (roundSpec m).map (fun r => scanNext m r.2) = some none := by
  decide

/-- Claim C1 as amended: for every non-empty enabled mask (over the 5
channel bits), a full round — ADC_UpdateBufferIdx then ADC_StartRead, then
the chained conversion-complete events until the scheduler finds no further
channel — stores a sample into exactly the channels whose bits are set in
the mask, each exactly once, in strictly ascending index order, and ends
with no conversion in flight (the scheduler scan from the final reading
channel yields none); the reading-channel variable keeps the last visited
index until the next round-advance resets it to -1, rather than returning
to -1 itself. -/
theorem round_visits_enabled_ascending (s0 : AdcState) (raws : Nat → Nat)
    (hm : s0.ADC_EnabledInputs < 32) (hne : s0.ADC_EnabledInputs ≠ 0)
    (hwf : wfBuffer s0.ADC_buffer) (hb : s0.iBuffer < N_ADC_BUFFERS)
    (hp : s0.iBufferPos < N_ADC_BUFFER_POS) :
    ∃ sf : AdcState, fullRound raws s0 =
        some (sf, ((List.range N_ADC_INPUT).filter
          (fun i => s0.ADC_EnabledInputs.testBit i)).map (fun i => (i : Int))) ∧
      scanNext s0.ADC_EnabledInputs sf.iReadInput = none := by
  have hsim := fullRound_pure raws s0 hne hwf hb hp
  obtain ⟨hfst, hfin⟩ := roundSpec_complete s0.ADC_EnabledInputs hm hne
  rcases hfr : fullRound raws s0 with _ | r
  · rw [hfr] at hsim
    rw [← hsim] at hfst
    simp at hfst
  · rw [hfr] at hsim
    rw [← hsim] at hfst hfin
    simp only [Option.map_some', Option.some.injEq] at hfst hfin
    refine ⟨r.1, ?_, hfin⟩
    rw [← hfst]

/-- Witness for the amended C1 with mask 0b101 from the startup state. -/
theorem round_visits_enabled_ascending_witness :
    ∃ sf : AdcState, fullRound (fun _ => 0) (adcInitState 5) =
        some (sf, ((List.range N_ADC_INPUT).filter
          (fun i => (adcInitState 5).ADC_EnabledInputs.testBit i)).map (fun i => (i : Int))) ∧
      scanNext (adcInitState 5).ADC_EnabledInputs sf.iReadInput = none :=
  round_visits_enabled_ascending (adcInitState 5) (fun _ => 0) (by decide) (by decide)
    wf_initBuffer (by decide) (by decide)

/-- Counterexample to claim C1 as stated: with only channel 0 enabled, the
full round ends with the reading-channel variable equal to 0 (the last
visited channel), not the idle value -1 the claim asserts. -/
theorem round_end_not_idle :
    (fullRound (fun _ => 0) (adcInitState 1)).map (fun r => r.1.iReadInput) = some 0 ∧
      (fullRound (fun _ => 0) (adcInitState 1)).map (fun r => r.1.iReadInput) ≠ some (-1) := by
  constructor
  · decide
  · decide

/-! ## C8: wire payload layout and round-trip -/

theorem samplesBytes_length : ∀ fr : List Int, (samplesBytes fr).length = 2 * fr.length := by
  intro fr
  induction fr with
  | nil => rfl
  | cons v vs ih =>
    simp only [samplesBytes, sampleBytes, List.length_append, List.length_cons, ih,
      List.length_nil]
    omega

theorem decodeSample_sampleBytes (v : Int) (h1 : -32768 ≤ v) (h2 : v < 32768) :
    decodeSample ((v % 65536).toNat % 256) ((v % 65536).toNat / 256) = v := by
  have hu : (v % 65536).toNat % 256 + 256 * ((v % 65536).toNat / 256) = (v % 65536).toNat :=
    Nat.mod_add_div _ 256
  simp only [decodeSample, hu]
  split_ifs <;> omega

theorem decodeSamples_samplesBytes : ∀ (fr : List Int) (rest : List Nat),
    (∀ v ∈ fr, -32768 ≤ v ∧ v < 32768) →
    decodeSamples (samplesBytes fr ++ rest) fr.length = some (fr, rest) := by
  intro fr
  induction fr with
  | nil => intro rest _; simp [samplesBytes, decodeSamples]
  | cons v vs ih =>
    intro rest hin
    obtain ⟨hv1, hv2⟩ := hin v (List.mem_cons_self v vs)
    have ihx := ih rest (fun w hw => hin w (List.mem_cons_of_mem v hw))
    simp only [samplesBytes, sampleBytes, List.append_eq, List.cons_append, List.nil_append,
      List.length_cons, decodeSamples, ihx]
    rw [decodeSample_sampleBytes v hv1 hv2]

theorem collectParts_decode : ∀ (cs : List Nat) (buf : List (List (List Int))) (iB : Nat),
    wfBuffer buf → bufInRange buf → iB < N_ADC_BUFFERS → (∀ c2 ∈ cs, c2 < N_ADC_INPUT) →
    ∃ body, collectParts buf iB cs = some body ∧
      body.length = 2 * (N_ADC_BUFFER_POS * cs.length) ∧
      decodeChannels cs body = some (cs.map (fun i => (i, (buf.getD i []).getD iB []))) := by
  intro cs
  induction cs with
  | nil =>
    intro buf iB _ _ _ _
    exact ⟨[], rfl, rfl, rfl⟩
  | cons i is ih =>
    intro buf iB hwf hir hiB hcs
    obtain ⟨hlen, hch⟩ := hwf
    have hi : i < buf.length := by rw [hlen]; exact hcs i (List.mem_cons_self i is)
    have hgb : buf[i]? = some buf[i] := List.getElem?_eq_getElem hi
    have hmem1 : buf[i] ∈ buf := List.getElem_mem hi
    obtain ⟨hchlen, hfr⟩ := hch _ hmem1
    have hib : iB < buf[i].length := by rw [hchlen]; exact hiB
    have hgc : buf[i][iB]? = some buf[i][iB] := List.getElem?_eq_getElem hib
    have hmem2 : buf[i][iB] ∈ buf[i] := List.getElem_mem hib
    have hfrl : buf[i][iB].length = N_ADC_BUFFER_POS := hfr _ hmem2
    have hfb : frameBytes buf[i][iB] = some (samplesBytes buf[i][iB]) := by
      rw [frameBytes, if_pos hfrl]
    obtain ⟨rest, hrest, hrlen, hrdec⟩ := ih buf iB ⟨hlen, hch⟩ hir hiB
      (fun c2 h2 => hcs c2 (List.mem_cons_of_mem i h2))
    refine ⟨samplesBytes buf[i][iB] ++ rest, ?_, ?_, ?_⟩
    · simp only [collectParts, hgb, hgc, hfb, hrest]
    · rw [List.length_append, samplesBytes_length, hfrl, hrlen, List.length_cons]
      ring
    · have hinr : ∀ v ∈ buf[i][iB], -32768 ≤ v ∧ v < 32768 :=
        fun v hv => hir _ hmem1 _ hmem2 v hv
      have hds := decodeSamples_samplesBytes buf[i][iB] rest hinr
      rw [hfrl] at hds
      simp only [decodeChannels, hds, hrdec, List.map_cons]
      have hg1 : (buf.getD i []).getD iB [] = buf[i][iB] := by
        simp [List.getD_eq_getElem?_getD, hgb, hgc]
      rw [hg1]

/-- Claim C8: the serialized payload is the type tag (default char D = 68),
the buffer index byte, the enabled-mask byte, then for each enabled channel
ascending the 16 samples in position order as 2 bytes each, least-significant
first; its length is 3 + 2 * 16 * (number of enabled channels) — for mask
0b101 exactly 3 + 2 * (2 * 16) bytes — and decoding per the wire format
reconstructs the tag, buffer index, mask and per-channel sample rows
exactly. -/
theorem udp_payload_roundtrip (s : AdcState) (iBuffer_in : Nat) (hwf : wfBuffer s.ADC_buffer)
    (hir : bufInRange s.ADC_buffer) (hiB : iBuffer_in < N_ADC_BUFFERS) :
    ∃ payload, ADC_UdpTransmitD s iBuffer_in = some payload ∧
      payload.length = 3 + 2 * (N_ADC_BUFFER_POS *
        ((List.range N_ADC_INPUT).filter (fun i => s.ADC_EnabledInputs.testBit i)).length) ∧
      decodePayload payload = some (68, iBuffer_in, s.ADC_EnabledInputs,
        ((List.range N_ADC_INPUT).filter (fun i => s.ADC_EnabledInputs.testBit i)).map
          (fun i => (i, (s.ADC_buffer.getD i []).getD iBuffer_in []))) := by
  obtain ⟨body, hc, hl, hd⟩ := collectParts_decode
    ((List.range N_ADC_INPUT).filter (fun i => s.ADC_EnabledInputs.testBit i))
    s.ADC_buffer iBuffer_in hwf hir hiB
    (fun c2 h2 => List.mem_range.mp (List.mem_of_mem_filter h2))
  refine ⟨68 :: iBuffer_in :: s.ADC_EnabledInputs :: body, ?_, ?_, ?_⟩
  · simp only [ADC_UdpTransmitD, ADC_UdpTransmit, hc]
  · simp only [List.length_cons, hl]
    omega
  · simp only [decodePayload, hd]

/-- Witness for C8 with mask 0b101 (channels 0 and 2) at buffer 0: the
payload has 3 + 2 * (2 * 16) = 67 bytes and decodes back. -/
theorem udp_payload_roundtrip_witness :
    ∃ payload, ADC_UdpTransmitD (adcInitState 5) 0 = some payload ∧
      payload.length = 3 + 2 * (N_ADC_BUFFER_POS * ((List.range N_ADC_INPUT).filter
        (fun i => (adcInitState 5).ADC_EnabledInputs.testBit i)).length) ∧
      decodePayload payload = some (68, 0, (adcInitState 5).ADC_EnabledInputs,
        ((List.range N_ADC_INPUT).filter
          (fun i => (adcInitState 5).ADC_EnabledInputs.testBit i)).map
          (fun i => (i, ((adcInitState 5).ADC_buffer.getD i []).getD 0 []))) :=
  udp_payload_roundtrip (adcInitState 5) 0 wf_initBuffer inRange_initBuffer (by decide)
